import Mathlib

/-!
Verification of the Rhythm Pattern Explorer UPI engine specification
against the repository's Python sources.

Patterns are ordered fixed-length lists of booleans (`List Bool`), with
index 0 the leftmost step (MSB-first display convention).

Functions taken from `src/Plugin/test_notation_fix.py` keep their Python
names (`pattern_to_decimal_webapp_style`, `pattern_to_hex_webapp_style`,
`euclidean_pattern`).  Components of the engine whose implementation is
not part of the Python sources (the C++/JS engine itself) are modelled
from the specification and marked as such in their doc comments.
-/

/-- Implementation cap on pattern length; the spec names 128 as the
example value of `MAX_STEPS`. -/
def MAX_STEPS : Nat := 128

/-- Uppercase digit character for a value `0 ≤ n < 16`, matching Python's
`{n:X}` format for single digits. -/
def digitChar (n : Nat) : Char :=
  match n with
  | 0 => '0' | 1 => '1' | 2 => '2' | 3 => '3' | 4 => '4'
  | 5 => '5' | 6 => '6' | 7 => '7' | 8 => '8' | 9 => '9'
  | 10 => 'A' | 11 => 'B' | 12 => 'C' | 13 => 'D' | 14 => 'E' | 15 => 'F'
  | _ => '?'

/-- Numeric value of a digit character (inverse of `digitChar` on valid
digits). -/
def digitVal (c : Char) : Nat :=
  if c ≤ '9' then c.toNat - 48 else c.toNat - 55

/-- Most-significant-first digit string of `n` in base `b`, driven by a
fuel argument (`fuel = n` suffices since `n / b < n` for `b ≥ 2`). -/
def natToBaseAux (b : Nat) : Nat → Nat → List Char
  | 0, _ => []
  | fuel + 1, n =>
    if n = 0 then [] else natToBaseAux b fuel (n / b) ++ [digitChar (n % b)]

/-- Render `n` in base `b` without leading zeros, `"0"` for zero; for
`b = 16` this matches Python's `f"\x7bn:X\x7d"` format. -/
def natToBaseStr (b n : Nat) : String :=
  if n = 0 then "0" else ⟨natToBaseAux b n n⟩

/-- From `src/Plugin/test_notation_fix.py`: convert a pattern to its
decimal value using the left-to-right (MSB first) convention. -/
def pattern_to_decimal_webapp_style (pattern : List Bool) : Nat :=
  pattern.enum.foldl
    (fun decimal x =>
      if x.2 then decimal ||| (1 <<< (pattern.length - 1 - x.1)) else decimal)
    0

/-- From `src/Plugin/test_notation_fix.py`: convert a pattern to a hex
string `0x…` using the left-to-right (MSB first) convention. -/
def pattern_to_hex_webapp_style (pattern : List Bool) : String :=
  "0x" ++ natToBaseStr 16 (pattern_to_decimal_webapp_style pattern)

/-- Modelled from the spec: the octal rendering `o<OCTAL>` of display
line 2 uses the same MSB-first bit weighting (the octal renderer itself
is in the C++/JS engine, not in the Python sources). -/
def pattern_to_octal_webapp_style (pattern : List Bool) : String :=
  "o" ++ natToBaseStr 8 (pattern_to_decimal_webapp_style pattern)

/-- Modelled from the spec: the decimal rendering `d<DECIMAL>` of display
line 2 (same MSB-first weighting). -/
def pattern_to_decimal_display (pattern : List Bool) : String :=
  "d" ++ natToBaseStr 10 (pattern_to_decimal_webapp_style pattern)

/-- The spec's words for the decimal value of a pattern: the sum of
`2^(length-1-i)` over all true positions `i` (refinement counterpart of
`pattern_to_decimal_webapp_style`). -/
def msbWeightSum (p : List Bool) : Nat :=
  ∑ i ∈ Finset.range p.length, if p.getD i false then 2 ^ (p.length - 1 - i) else 0

/-- From `src/Plugin/test_notation_fix.py`: the test file's simple
Euclidean pattern generator (`onsets == 0` gives all rests,
`onsets >= steps` gives all onsets, otherwise onset positions are
`int(i * steps / onsets)`). -/
def euclidean_pattern (onsets steps : Nat) : List Bool :=
  if onsets = 0 then List.replicate steps false
  else if steps ≤ onsets then List.replicate steps true
  else
    (List.range onsets).foldl
      (fun pat i => pat.set (i * steps / onsets) true)
      (List.replicate steps false)

/-- Helper: set every listed position of a boolean list to `true`. -/
def setTrues (L : List Nat) (base : List Bool) : List Bool :=
  L.foldl (fun pat p => pat.set p true) base

/-- Modelled from the spec: one round of classic Bjorklund bucket
merging — distribute the remainder group `b` across the majority group
`a` by pairwise concatenation until the remainder count drops to 0 or 1
(the UPI engine's Bjorklund generator is C++/JS code outside the Python
sources). -/
def bjorklundAux : Nat → List (List Bool) → List (List Bool) → List (List Bool)
  | 0, a, b => a ++ b
  | fuel + 1, a, b =>
    if b.length ≤ 1 then a ++ b
    else
      bjorklundAux fuel (List.zipWith (· ++ ·) a b)
        (if a.length ≤ b.length then b.drop a.length else a.drop b.length)

/-- Modelled from the spec: `euclid(onsets, steps, rotation)` — classic
Bjorklund with the spec's edge cases (`onsets == 0` all-false,
`onsets == steps` all-true) and a left cyclic shift by
`rotation mod steps`. -/
def euclid (onsets steps : Nat) (rotation : Nat := 0) : List Bool :=
  if steps = 0 then []
  else if onsets = 0 then List.replicate steps false
  else if steps ≤ onsets then List.replicate steps true
  else
    let pat :=
      (bjorklundAux steps (List.replicate onsets [true])
        (List.replicate (steps - onsets) [false])).flatten
    let r := rotation % steps
    pat.drop r ++ pat.take r

/-- Modelled from the spec: `combine` — target length is the LCM of all
operand lengths, each operand is conceptually tiled, and result position
`i` is true iff some operand is true at `i mod` its length (the combiner
is C++/JS code outside the Python sources). -/
def combine (ps : List (List Bool)) : List Bool :=
  (List.range (ps.foldl (fun acc p => Nat.lcm acc p.length) 1)).map
    (fun i => ps.any (fun p => p.getD (i % p.length) false))

/-- Modelled from the spec: the Morse lookup table (A–Z, 0–9) of
dot/dash strings used by the Morse encoder. -/
def morseCode (c : Char) : String :=
  match c with
  | 'A' => ".-" | 'B' => "-..." | 'C' => "-.-." | 'D' => "-.." | 'E' => "."
  | 'F' => "..-." | 'G' => "--." | 'H' => "...." | 'I' => ".." | 'J' => ".---"
  | 'K' => "-.-" | 'L' => ".-.." | 'M' => "--" | 'N' => "-." | 'O' => "---"
  | 'P' => ".--." | 'Q' => "--.-" | 'R' => ".-." | 'S' => "..." | 'T' => "-"
  | 'U' => "..-" | 'V' => "...-" | 'W' => ".--" | 'X' => "-..-" | 'Y' => "-.--"
  | 'Z' => "--.."
  | '0' => "-----" | '1' => ".----" | '2' => "..---" | '3' => "...--"
  | '4' => "....-" | '5' => "....." | '6' => "-...." | '7' => "--..."
  | '8' => "---.." | '9' => "----."
  | _ => ""

/-- Modelled from the spec: per-character Morse encoding — dot is one
`true` step, dash is `[true, false]`. -/
def charMorse (c : Char) : List Bool :=
  ((morseCode c).data.map (fun s => if s = '.' then [true] else [true, false])).flatten

/-- Modelled from the spec: natural-length Morse sequence of a text —
per-character encodings joined with one `false` between characters of a
word and three `false` between words. -/
def morseNatural (text : String) : List Bool :=
  List.intercalate [false, false, false]
    ((text.data.splitOn ' ').map
      (fun w => List.intercalate [false] (w.map charMorse)))

/-- Modelled from the spec: `morse(text, explicitSteps)` — natural
length when no step count is given; otherwise truncate if longer or
right-pad with `false` if shorter, to exactly that length. -/
def morse (text : String) (explicitSteps : Option Nat := none) : List Bool :=
  match explicitSteps with
  | none => morseNatural text
  | some n =>
    if n ≤ (morseNatural text).length then (morseNatural text).take n
    else morseNatural text ++ List.replicate (n - (morseNatural text).length) false

/-- Modelled from the spec: the progressive transformer's state — the
current pattern, current and target onset counts, and the ordered
candidate position lists computed at construction. -/
structure ProgressiveState where
  pattern : List Bool
  current : Nat
  target : Nat
  growPositions : List Nat
  shrinkPositions : List Nat
deriving Repr, DecidableEq

/-- Modelled from the spec: one `advance()` call — if `current < target`
set the next growth position and increment `current`; if
`current > target` clear the next shrink position and decrement; if
`current == target` do nothing.  (The spec guarantees the candidate
lists cover the gap; on an exhausted list only the counter moves.) -/
def progAdvance (s : ProgressiveState) : ProgressiveState :=
  if s.current < s.target then
    match s.growPositions with
    | [] => { s with current := s.current + 1 }
    | p :: rest =>
      { s with pattern := s.pattern.set p true, current := s.current + 1,
               growPositions := rest }
  else if s.target < s.current then
    match s.shrinkPositions with
    | [] => { s with current := s.current - 1 }
    | p :: rest =>
      { s with pattern := s.pattern.set p false, current := s.current - 1,
               shrinkPositions := rest }
  else s

/-- Iterate `progAdvance` a given number of times. -/
def progIter : Nat → ProgressiveState → ProgressiveState
  | 0, s => s
  | n + 1, s => progAdvance (progIter n s)

/-- Parse a digit string in base `b` (most significant digit first). -/
def parseBaseNat (b : Nat) (cs : List Char) : Nat :=
  cs.foldl (fun acc c => b * acc + digitVal c) 0

/-- Modelled from the spec: decode a numeric value into the pattern of
the given length under the MSB-first convention (bit at step 0 carries
weight `2^(length-1)`). -/
def natToPattern (steps n : Nat) : List Bool :=
  (List.range steps).map (fun i => n.testBit (steps - 1 - i))

/-- Modelled from the spec: `hexToBinary` — parse a `0x…` hex literal
into a pattern of the given length. -/
def hexToBinary (steps : Nat) (h : String) : List Bool :=
  natToPattern steps (parseBaseNat 16 (h.data.drop 2))

/-- Modelled from the spec: parse an `o…` octal literal into a pattern
of the given length. -/
def octalToBinary (steps : Nat) (h : String) : List Bool :=
  natToPattern steps (parseBaseNat 8 (h.data.drop 1))

/-- Modelled from the spec: parse a `d…` decimal literal into a pattern
of the given length. -/
def decimalToBinary (steps : Nat) (h : String) : List Bool :=
  natToPattern steps (parseBaseNat 10 (h.data.drop 1))

/-- Is every character of the string a binary digit? -/
def isBinaryString (cs : List Char) : Bool :=
  cs.all (fun c => c == '0' || c == '1')

/-- Minimal MSB-first binary expansion of a natural number. -/
def natToBits (n : Nat) : List Bool :=
  (natToBaseAux 2 n n).map (fun c => c == '1')

/-- Modelled from the spec: the parser's disambiguation rule for a bare
digit string with no prefix marker — all characters `0`/`1` parse as a
binary pattern, anything else parses as a legacy plain decimal number
rendered MSB-first. -/
def parseBareDigits (s : String) : List Bool :=
  if isBinaryString s.data then s.data.map (fun c => c == '1')
  else natToBits (parseBaseNat 10 s.data)

/-- The accumulator of the webapp-style decimal fold keeps a factor of
`2 ^ (L - k)` while only positions `≥ k` remain, so each OR is an
addition of a fresh power of two. -/
theorem foldl_enumFrom_or (L : Nat) :
    ∀ (q : List Bool) (k d : Nat), k + q.length ≤ L → 2 ^ (L - k) ∣ d →
      (List.enumFrom k q).foldl
        (fun decimal x =>
          if x.2 then decimal ||| (1 <<< (L - 1 - x.1)) else decimal) d
      = d + ∑ i ∈ Finset.range q.length,
          (if q.getD i false then 2 ^ (L - 1 - (k + i)) else 0) := by
  intro q
  induction q with
  | nil => intro k d _ _; simp
  | cons b q ih =>
    intro k d hk hd
    simp only [List.length_cons] at hk ⊢
    have hk' : k + 1 + q.length ≤ L := by omega
    have hshift : ∀ i : Nat, L - 1 - (k + (i + 1)) = L - 1 - (k + 1 + i) := by
      intro i; omega
    cases b with
    | false =>
      have hd' : 2 ^ (L - (k + 1)) ∣ d :=
        dvd_trans (pow_dvd_pow 2 (by omega)) hd
      show (List.enumFrom (k + 1) q).foldl _ d = _
      rw [ih (k + 1) d hk' hd', Finset.sum_range_succ']
      simp only [List.getD_cons_succ, List.getD_cons_zero, hshift]
      rw [if_neg Bool.false_ne_true]
      omega
    | true =>
      rcases hd with ⟨m, hm⟩
      have hlt : 2 ^ (L - 1 - k) < 2 ^ (L - k) :=
        Nat.pow_lt_pow_right (by norm_num) (by omega)
      have hor : d ||| (1 <<< (L - 1 - k)) = d + 2 ^ (L - 1 - k) := by
        rw [Nat.one_shiftLeft, hm]
        exact (Nat.mul_add_lt_is_or hlt m).symm
      have hd' : 2 ^ (L - (k + 1)) ∣ d + 2 ^ (L - 1 - k) := by
        refine Nat.dvd_add (dvd_trans (pow_dvd_pow 2 (by omega)) ⟨m, hm⟩) ?_
        have : L - (k + 1) = L - 1 - k := by omega
        rw [this]
      show (List.enumFrom (k + 1) q).foldl _ (d ||| (1 <<< (L - 1 - k))) = _
      rw [hor, ih (k + 1) _ hk' hd', Finset.sum_range_succ']
      simp only [List.getD_cons_succ, List.getD_cons_zero, hshift, Nat.add_zero]
      rw [if_pos trivial]
      omega

/-- The source's fold computes the spec's MSB-first weighted sum. -/
theorem pattern_to_decimal_eq_msbWeightSum (p : List Bool) :
    pattern_to_decimal_webapp_style p = msbWeightSum p := by
  show (List.enumFrom 0 p).foldl _ 0 = _
  rw [foldl_enumFrom_or p.length p 0 0 (by omega) (Dvd.intro 0 rfl)]
  simp [msbWeightSum]

/-- A natural number below `2 ^ s` equals the sum of its bit weights. -/
theorem sum_testBit_eq : ∀ (s n : Nat), n < 2 ^ s →
    (∑ j ∈ Finset.range s, if n.testBit j then 2 ^ j else 0) = n := by
  intro s
  induction s with
  | zero =>
    intro n h
    interval_cases n
    simp
  | succ s ih =>
    intro n h
    rw [Finset.sum_range_succ']
    have h2 : n / 2 < 2 ^ s := by
      rw [Nat.div_lt_iff_lt_mul (by norm_num)]
      calc n < 2 ^ (s + 1) := h
        _ = 2 ^ s * 2 := by ring
    have hrec : ∀ j : Nat,
        (if n.testBit (j + 1) then 2 ^ (j + 1) else 0)
          = 2 * (if (n / 2).testBit j then 2 ^ j else 0) := by
      intro j
      rw [Nat.testBit_add_one]
      cases (n / 2).testBit j <;> simp [pow_succ]
      ring
    simp only [hrec]
    rw [← Finset.mul_sum, ih (n / 2) h2, Nat.testBit_zero]
    rcases Nat.mod_two_eq_zero_or_one n with hm | hm <;> simp [hm] <;> omega

/-- `natToPattern` produces a list of the requested length. -/
theorem length_natToPattern (s n : Nat) : (natToPattern s n).length = s := by
  simp [natToPattern]

/-- Entry `i` of `natToPattern s n` is bit `s - 1 - i` of `n`. -/
theorem getD_natToPattern (s n i : Nat) (h : i < s) :
    (natToPattern s n).getD i false = n.testBit (s - 1 - i) := by
  simp [natToPattern, List.getD_eq_getElem?_getD, List.getElem?_map,
    List.getElem?_range, h]

/-- Decoding a value below `2 ^ steps` to a pattern and re-encoding it
MSB-first recovers the value. -/
theorem natToPattern_decimal (s n : Nat) (h : n < 2 ^ s) :
    pattern_to_decimal_webapp_style (natToPattern s n) = n := by
  rw [pattern_to_decimal_eq_msbWeightSum, msbWeightSum, length_natToPattern]
  rw [Finset.sum_congr rfl fun i hi => by
    rw [getD_natToPattern s n i (Finset.mem_range.mp hi)]]
  rw [Finset.sum_range_reflect (fun j => if n.testBit j then 2 ^ j else 0) s]
  exact sum_testBit_eq s n h

/-- `digitChar` and `digitVal` are inverse on digit values. -/
theorem digitVal_digitChar (d : Nat) (h : d < 16) :
    digitVal (digitChar d) = d := by
  interval_cases d <;> decide

/-- Folding the base-`b` parser over the digits of `n` recovers `n`
(generalized over the initial accumulator). -/
theorem parseBase_natToBaseAux (b : Nat) (hb2 : 2 ≤ b) (hb16 : b ≤ 16) :
    ∀ (fuel n acc : Nat), n ≤ fuel →
      (natToBaseAux b fuel n).foldl (fun a c => b * a + digitVal c) acc
        = acc * b ^ (natToBaseAux b fuel n).length + n := by
  intro fuel
  induction fuel with
  | zero =>
    intro n acc h
    interval_cases n
    simp [natToBaseAux]
  | succ fuel ih =>
    intro n acc h
    by_cases hn : n = 0
    · subst hn; simp [natToBaseAux]
    · rw [natToBaseAux, if_neg hn, List.foldl_append]
      have hdiv : n / b ≤ fuel := by
        have : n / b < n := Nat.div_lt_self (Nat.pos_of_ne_zero hn) (by omega)
        omega
      rw [ih (n / b) acc hdiv]
      simp only [List.foldl_cons, List.foldl_nil, List.length_append,
        List.length_cons, List.length_nil]
      rw [digitVal_digitChar (n % b)
        (by have := Nat.mod_lt n (show 0 < b by omega); omega)]
      calc b * (acc * b ^ (natToBaseAux b fuel (n / b)).length + n / b) + n % b
          = acc * (b ^ (natToBaseAux b fuel (n / b)).length * b)
            + (b * (n / b) + n % b) := by ring
        _ = acc * b ^ ((natToBaseAux b fuel (n / b)).length + 0 + 1) + n := by
            rw [Nat.div_add_mod, pow_succ]

/-- Round trip: parsing the rendered base-`b` string of `n` gives back
`n`, for any base `2 ≤ b ≤ 16`. -/
theorem parseBaseNat_natToBaseStr (b n : Nat) (hb2 : 2 ≤ b) (hb16 : b ≤ 16) :
    parseBaseNat b (natToBaseStr b n).data = n := by
  unfold natToBaseStr parseBaseNat
  by_cases hn : n = 0
  · subst hn
    simp [show digitVal '0' = 0 from by decide]
  · rw [if_neg hn]
    exact (parseBase_natToBaseAux b hb2 hb16 n n 0 le_rfl).trans (by simp)

/-- Dropping the `0x` marker of a hex literal leaves the digit string. -/
theorem drop_two_append (s : String) : ("0x" ++ s).data.drop 2 = s.data := rfl

/-- Dropping a one-character marker leaves the digit string. -/
theorem drop_one_append (c : Char) (s : String) :
    (String.mk [c] ++ s).data.drop 1 = s.data := rfl

/-- Setting positions never changes the length of the pattern. -/
theorem length_setTrues (L : List Nat) :
    ∀ base : List Bool, (setTrues L base).length = base.length := by
  induction L with
  | nil => intro base; rfl
  | cons p L ih =>
    intro base
    show (setTrues L (base.set p true)).length = base.length
    rw [ih, List.length_set]

/-- Setting a position that currently holds `false` increases the count
of `true` by one. -/
theorem count_set_true :
    ∀ (base : List Bool) (p : Nat), base[p]? = some false →
      (base.set p true).count true = base.count true + 1 := by
  intro base
  induction base with
  | nil => intro p h; simp at h
  | cons b bs ih =>
    intro p h
    cases p with
    | zero =>
      simp only [List.getElem?_cons_zero, Option.some.injEq] at h
      subst h
      simp [List.count_cons]
    | succ p =>
      simp only [List.getElem?_cons_succ] at h
      show (b :: bs.set p true).count true = (b :: bs).count true + 1
      cases b <;> simp [List.count_cons, ih p h]

/-- Setting a distinct, duplicate-free list of positions that all hold
`false` increases the `true` count by the number of positions. -/
theorem count_setTrues :
    ∀ (L : List Nat) (base : List Bool), L.Nodup →
      (∀ p ∈ L, base[p]? = some false) →
      (setTrues L base).count true = base.count true + L.length := by
  intro L
  induction L with
  | nil => intro base _ _; simp [setTrues]
  | cons q L ih =>
    intro base hnd hf
    show (setTrues L (base.set q true)).count true = _
    have hq : base[q]? = some false := hf q (by simp)
    have hqnot : q ∉ L := (List.nodup_cons.mp hnd).1
    have hf' : ∀ p ∈ L, (base.set q true)[p]? = some false := by
      intro p hp
      rw [List.getElem?_set_ne (fun e => hqnot (by rw [e]; exact hp))]
      exact hf p (by simp [hp])
    rw [ih (base.set q true) (List.nodup_cons.mp hnd).2 hf',
      count_set_true base q hq, List.length_cons]
    omega

/-- Every onset position computed by the test generator is in range. -/
theorem euclid_pos_lt (o s i : Nat) (ho : 0 < o) (hos : o ≤ s) (hi : i < o) :
    i * s / o < s := by
  rw [Nat.div_lt_iff_lt_mul ho]
  have hs : 0 < s := lt_of_lt_of_le ho hos
  calc i * s < o * s := mul_lt_mul_of_pos_right hi hs
    _ = s * o := Nat.mul_comm o s

/-- For `onsets ≤ steps` the computed onset positions strictly
increase with the index. -/
theorem euclid_pos_strictMono (o s : Nat) (ho : 0 < o) (hos : o ≤ s) :
    ∀ i j : Nat, i < j → i * s / o < j * s / o := by
  intro i j hij
  have h1 : i * s / o + 1 ≤ (i + 1) * s / o := by
    rw [← Nat.add_div_right (i * s) ho]
    apply Nat.div_le_div_right
    calc i * s + o ≤ i * s + s := by omega
      _ = (i + 1) * s := by ring
  have h2 : (i + 1) * s / o ≤ j * s / o :=
    Nat.div_le_div_right (Nat.mul_le_mul_right s (by omega))
  omega

/-- The onset position list of the test generator has no duplicates. -/
theorem nodup_posList (o s : Nat) (ho : 0 < o) (hos : o ≤ s) :
    ((List.range o).map (fun i => i * s / o)).Nodup :=
  (List.pairwise_lt_range o).map _
    (fun a b hab => Nat.ne_of_lt (euclid_pos_strictMono o s ho hos a b hab))

/-- In the main branch the test generator places exactly `onsets`
onsets. -/
theorem euclidean_pattern_count_main (o s : Nat) (ho : 0 < o) (hos : o < s) :
    (euclidean_pattern o s).count true = o := by
  rw [euclidean_pattern, if_neg (by omega), if_neg (by omega)]
  have hf : ∀ p ∈ (List.range o).map (fun i => i * s / o),
      (List.replicate s false)[p]? = some false := by
    intro p hp
    rcases List.mem_map.mp hp with ⟨i, hi, rfl⟩
    exact List.getElem?_replicate_of_lt
      (euclid_pos_lt o s i ho (le_of_lt hos) (List.mem_range.mp hi))
  have key := count_setTrues ((List.range o).map (fun i => i * s / o))
    (List.replicate s false) (nodup_posList o s ho (le_of_lt hos)) hf
  unfold setTrues at key
  rw [List.foldl_map] at key
  rw [key]
  simp [List.count_eq_zero]

/-- Advancing never changes the target onset count. -/
theorem progAdvance_target (s : ProgressiveState) :
    (progAdvance s).target = s.target := by
  unfold progAdvance
  repeat' split
  all_goals rfl

/-- The current onset count moves one step toward the target (and stays
put at the target). -/
theorem progAdvance_current (s : ProgressiveState) :
    (progAdvance s).current =
      if s.current < s.target then s.current + 1
      else if s.target < s.current then s.current - 1
      else s.current := by
  unfold progAdvance
  repeat' split
  all_goals rfl

/-- At the target, an advance is a complete no-op on the state. -/
theorem progAdvance_eq_self (s : ProgressiveState)
    (h : s.current = s.target) : progAdvance s = s := by
  unfold progAdvance
  rw [if_neg (by omega), if_neg (by omega)]

/-- Iterated advancing never changes the target onset count. -/
theorem progIter_target (s : ProgressiveState) :
    ∀ n : Nat, (progIter n s).target = s.target := by
  intro n
  induction n with
  | zero => rfl
  | succ n ih =>
    show (progAdvance (progIter n s)).target = _
    rw [progAdvance_target, ih]

/-- Closed form of the current onset count after `n` advances: it moves
monotonically toward the target and clamps there. -/
theorem progIter_current (s : ProgressiveState) :
    ∀ n : Nat,
      (progIter n s).current =
        if s.current ≤ s.target then min (s.current + n) s.target
        else max (s.current - n) s.target := by
  intro n
  induction n with
  | zero =>
    show s.current = _
    split_ifs <;> omega
  | succ n ih =>
    show (progAdvance (progIter n s)).current = _
    rw [progAdvance_current, progIter_target s n, ih]
    split_ifs <;> omega

/-- Folding LCM over the operands from the left equals the LCM of the
list of lengths. -/
theorem foldl_lcm_lengths :
    ∀ (ps : List (List Bool)) (a : Nat),
      ps.foldl (fun acc p => Nat.lcm acc p.length) a
        = Nat.lcm a ((ps.map List.length).foldr Nat.lcm 1) := by
  intro ps
  induction ps with
  | nil => intro a; simp [Nat.lcm_one_right]
  | cons p ps ih =>
    intro a
    show ps.foldl _ (Nat.lcm a p.length) = _
    rw [ih (Nat.lcm a p.length), List.map_cons, List.foldr_cons, Nat.lcm_assoc]

/-- The combined pattern's length is the LCM of the operand lengths. -/
theorem combine_length (ps : List (List Bool)) :
    (combine ps).length = (ps.map List.length).foldr Nat.lcm 1 := by
  simp [combine, foldl_lcm_lengths, Nat.lcm_one_left]

/-- Entry `i` of the combined pattern is the OR over all operands of the
operand's value at `i` modulo its length. -/
theorem combine_getD (ps : List (List Bool)) (i : Nat)
    (hi : i < ps.foldl (fun acc p => Nat.lcm acc p.length) 1) :
    (combine ps).getD i false
      = ps.any (fun p => p.getD (i % p.length) false) := by
  simp [combine, List.getD_eq_getElem?_getD, List.getElem?_map,
    List.getElem?_range, hi]

/-- With an explicit step count the Morse pattern has exactly that
length. -/
theorem morse_explicit_length (text : String) (n : Nat) :
    (morse text (some n)).length = n := by
  show (if n ≤ (morseNatural text).length then (morseNatural text).take n
    else morseNatural text
      ++ List.replicate (n - (morseNatural text).length) false).length = n
  split_ifs with h
  · simp only [List.length_take]
    omega
  · simp only [List.length_append, List.length_replicate]
    omega

/-- When the natural sequence is at least as long as requested, the
explicit-length Morse pattern is its truncation. -/
theorem morse_truncates (text : String) (n : Nat)
    (h : n ≤ (morseNatural text).length) :
    morse text (some n) = (morseNatural text).take n := by
  show (if n ≤ (morseNatural text).length then _ else _) = _
  rw [if_pos h]

/-- When the natural sequence is shorter than requested, the
explicit-length Morse pattern right-pads it with rests. -/
theorem morse_pads (text : String) (n : Nat)
    (h : (morseNatural text).length ≤ n) :
    morse text (some n)
      = morseNatural text
        ++ List.replicate (n - (morseNatural text).length) false := by
  by_cases he : n ≤ (morseNatural text).length
  · have hn : n = (morseNatural text).length := le_antisymm he h
    subst hn
    show (if _ ≤ _ then _ else _) = _
    rw [if_pos le_rfl]
    simp
  · show (if _ ≤ _ then _ else _) = _
    rw [if_neg he]

/-- The test generator always returns exactly `steps` booleans. -/
theorem euclidean_pattern_length (o s : Nat) :
    (euclidean_pattern o s).length = s := by
  rw [euclidean_pattern]
  split_ifs
  · simp
  · simp
  · have h := length_setTrues ((List.range o).map (fun i => i * s / o))
      (List.replicate s false)
    unfold setTrues at h
    rw [List.foldl_map] at h
    rw [h, List.length_replicate]

/-- Claim C1: the Euclidean generator returns the spec's reference
patterns — `euclid(5,8)` is the 8-step pattern `10110110` and
`euclid(3,8)` is `10010010`, leftmost digit being step 0. -/
theorem euclid_reference_patterns :
    euclid 5 8 = [true, false, true, true, false, true, true, false]
    ∧ euclid 3 8 = [true, false, false, true, false, false, true, false] := by
  exact ⟨by decide, by decide⟩

/-- Claim C2: base conversion uses MSB-first weighting — for every
pattern the decimal value is the sum of `2^(length-1-i)` over the true
positions `i`, and in particular `10010010` renders as
`0x92`/`o222`/`146` and `10110110` as `0xB6`/`o266`/`182`. -/
theorem msb_first_weighting :
    (∀ p : List Bool, pattern_to_decimal_webapp_style p = msbWeightSum p)
    ∧ pattern_to_hex_webapp_style
        [true, false, false, true, false, false, true, false] = "0x92"
    ∧ pattern_to_octal_webapp_style
        [true, false, false, true, false, false, true, false] = "o222"
    ∧ pattern_to_decimal_webapp_style
        [true, false, false, true, false, false, true, false] = 146
    ∧ pattern_to_hex_webapp_style
        [true, false, true, true, false, true, true, false] = "0xB6"
    ∧ pattern_to_octal_webapp_style
        [true, false, true, true, false, true, true, false] = "o266"
    ∧ pattern_to_decimal_webapp_style
        [true, false, true, true, false, true, true, false] = 182 :=
  ⟨pattern_to_decimal_eq_msbWeightSum, by decide, by decide, by decide,
    by decide, by decide, by decide⟩

/-- Claim C3: for every length in `[1, MAX_STEPS]` and every valid hex
(octal, decimal) representation of a pattern of that length, converting
to binary and back yields the representation unchanged, under the
MSB-first convention. -/
theorem base_roundtrip_identity :
    ∀ steps : Nat, 1 ≤ steps → steps ≤ MAX_STEPS → ∀ n : Nat, n < 2 ^ steps →
      pattern_to_hex_webapp_style (hexToBinary steps ("0x" ++ natToBaseStr 16 n))
        = "0x" ++ natToBaseStr 16 n
      ∧ pattern_to_octal_webapp_style
          (octalToBinary steps ("o" ++ natToBaseStr 8 n))
        = "o" ++ natToBaseStr 8 n
      ∧ pattern_to_decimal_display
          (decimalToBinary steps ("d" ++ natToBaseStr 10 n))
        = "d" ++ natToBaseStr 10 n := by
  intro steps _ _ n hn
  refine ⟨?_, ?_, ?_⟩
  · unfold pattern_to_hex_webapp_style hexToBinary
    rw [drop_two_append,
      parseBaseNat_natToBaseStr 16 n (by norm_num) (by norm_num),
      natToPattern_decimal steps n hn]
  · unfold pattern_to_octal_webapp_style octalToBinary
    rw [show ("o" ++ natToBaseStr 8 n).data.drop 1 = (natToBaseStr 8 n).data
        from rfl,
      parseBaseNat_natToBaseStr 8 n (by norm_num) (by norm_num),
      natToPattern_decimal steps n hn]
  · unfold pattern_to_decimal_display decimalToBinary
    rw [show ("d" ++ natToBaseStr 10 n).data.drop 1 = (natToBaseStr 10 n).data
        from rfl,
      parseBaseNat_natToBaseStr 10 n (by norm_num) (by norm_num),
      natToPattern_decimal steps n hn]

/-- Witness for C3 at `steps = 8`, `n = 146`. -/
theorem base_roundtrip_identity_witness :
    pattern_to_hex_webapp_style (hexToBinary 8 ("0x" ++ natToBaseStr 16 146))
      = "0x" ++ natToBaseStr 16 146
    ∧ pattern_to_octal_webapp_style
        (octalToBinary 8 ("o" ++ natToBaseStr 8 146))
      = "o" ++ natToBaseStr 8 146
    ∧ pattern_to_decimal_display
        (decimalToBinary 8 ("d" ++ natToBaseStr 10 146))
      = "d" ++ natToBaseStr 10 146 :=
  base_roundtrip_identity 8 (by decide) (by decide) 146 (by decide)

/-- Claim C4: combining a non-empty list of patterns yields a pattern
whose length is the LCM of the operand lengths, with position `i` true
iff some operand is true at `i` modulo its own length; combining 7- and
11-step full patterns gives 77 steps, and coprime non-trivial lengths
`a`, `b` always give length `a * b`. -/
theorem combine_lcm_spec :
    (∀ ps : List (List Bool), ps ≠ [] →
      (combine ps).length = (ps.map List.length).foldr Nat.lcm 1
      ∧ ∀ i : Nat, i < (combine ps).length →
          ((combine ps).getD i false = true
            ↔ ∃ p ∈ ps, p.getD (i % p.length) false = true))
    ∧ (combine [List.replicate 7 true, List.replicate 11 true]).length = 77
    ∧ (∀ p q : List Bool, 0 < p.length → 0 < q.length →
        Nat.Coprime p.length q.length →
        (combine [p, q]).length = p.length * q.length) := by
  refine ⟨?_, by decide, ?_⟩
  · intro ps _
    refine ⟨combine_length ps, ?_⟩
    intro i hi
    rw [combine_getD ps i (by simpa [combine] using hi)]
    simp [List.any_eq_true]
  · intro p q _ _ hco
    rw [combine_length, List.map_cons, List.map_cons, List.map_nil,
      List.foldr_cons, List.foldr_cons, List.foldr_nil, Nat.lcm_one_right]
    exact hco.lcm_eq_mul

/-- Witness for C4: coprime lengths 3 and 2 combine to length 6. -/
theorem combine_lcm_spec_witness :
    (combine [[true, false, true], [true, false]]).length
      = [true, false, true].length * [true, false].length :=
  combine_lcm_spec.2.2 [true, false, true] [true, false]
    (by decide) (by decide) (by decide)

/-- Claim C5: for `0 ≤ onsets ≤ steps` the generator returns a pattern
of length exactly `steps` with exactly `onsets` true positions;
`onsets = 0` gives the all-false pattern and `onsets = steps` the
all-true pattern. -/
theorem euclidean_pattern_onset_count :
    ∀ onsets steps : Nat, onsets ≤ steps →
      (euclidean_pattern onsets steps).length = steps
      ∧ (euclidean_pattern onsets steps).count true = onsets
      ∧ (onsets = 0 →
          euclidean_pattern onsets steps = List.replicate steps false)
      ∧ (onsets = steps →
          euclidean_pattern onsets steps = List.replicate steps true) := by
  intro o s hos
  refine ⟨euclidean_pattern_length o s, ?_, ?_, ?_⟩
  · by_cases h0 : o = 0
    · subst h0
      rw [euclidean_pattern, if_pos rfl]
      simp [List.count_eq_zero]
    · by_cases heq : o = s
      · subst heq
        rw [euclidean_pattern, if_neg h0, if_pos le_rfl]
        simp
      · exact euclidean_pattern_count_main o s (Nat.pos_of_ne_zero h0)
          (lt_of_le_of_ne hos heq)
  · intro h0
    subst h0
    rw [euclidean_pattern, if_pos rfl]
  · intro heq
    subst heq
    by_cases h0 : o = 0
    · subst h0; rfl
    · rw [euclidean_pattern, if_neg h0, if_pos le_rfl]

/-- Witness for C5 at `onsets = 3`, `steps = 8`. -/
theorem euclidean_pattern_onset_count_witness :
    (euclidean_pattern 3 8).length = 8
    ∧ (euclidean_pattern 3 8).count true = 3
    ∧ (3 = 0 → euclidean_pattern 3 8 = List.replicate 8 false)
    ∧ (3 = 8 → euclidean_pattern 3 8 = List.replicate 8 true) :=
  euclidean_pattern_onset_count 3 8 (by decide)

/-- Claim C6: a progressive transform from `current = k1` toward
`target = k2` reaches the idle state (`current = target`) in exactly
`|k2 - k1|` advances, never overshoots, and once there every further
advance is a no-op leaving the whole state (pattern included)
unchanged. -/
theorem progressive_advance_reaches_target (s : ProgressiveState) :
    (progIter (Nat.dist s.current s.target) s).current = s.target
    ∧ (∀ m : Nat, m < Nat.dist s.current s.target →
        (progIter m s).current ≠ s.target)
    ∧ (∀ m : Nat,
        min s.current s.target ≤ (progIter m s).current
        ∧ (progIter m s).current ≤ max s.current s.target)
    ∧ (s.current = s.target → progAdvance s = s) := by
  refine ⟨?_, ?_, ?_, progAdvance_eq_self s⟩
  · rw [progIter_current]
    simp only [Nat.dist]
    split_ifs <;> omega
  · intro m hm
    rw [progIter_current]
    simp only [Nat.dist] at hm
    split_ifs <;> omega
  · intro m
    constructor <;> (rw [progIter_current]; split_ifs <;> omega)

/-- Witness for C6: from `current = 1`, `target = 3`, one advance has
not yet reached the target. -/
theorem progressive_advance_reaches_target_witness :
    (progIter 1
        (ProgressiveState.mk [true, false, false, false, false] 1 3 [2, 4] [])).current
      ≠ 3 :=
  (progressive_advance_reaches_target
    (ProgressiveState.mk [true, false, false, false, false] 1 3 [2, 4] [])).2.1
    1 (by decide)

/-- Claim C7: `morse("A")` has natural length 3 (`110`), an explicit
step count reproduces, pads, or truncates it (`110`, `110000`, `11`),
and in general an explicit count truncates a longer natural sequence or
right-pads a shorter one with rests to exactly that length. -/
theorem morse_length_spec :
    morse "A" = [true, true, false]
    ∧ morse "A" (some 3) = [true, true, false]
    ∧ morse "A" (some 6) = [true, true, false, false, false, false]
    ∧ morse "A" (some 2) = [true, true]
    ∧ (∀ (text : String) (n : Nat), (morse text (some n)).length = n)
    ∧ (∀ (text : String) (n : Nat), n ≤ (morseNatural text).length →
        morse text (some n) = (morseNatural text).take n)
    ∧ (∀ (text : String) (n : Nat), (morseNatural text).length ≤ n →
        morse text (some n)
          = morseNatural text
            ++ List.replicate (n - (morseNatural text).length) false) :=
  ⟨by decide, by decide, by decide, by decide,
    morse_explicit_length, morse_truncates, morse_pads⟩

/-- Witness for C7: truncation at `n = 2` on the text `"A"`. -/
theorem morse_length_spec_witness :
    morse "A" (some 2) = (morseNatural "A").take 2 :=
  morse_length_spec.2.2.2.2.2.1 "A" 2 (by decide)

/-- Claim C8: a bare digit string parses as the binary pattern spelled
by the digits when all characters are 0/1, and otherwise as the
MSB-first binary expansion of its decimal value — `"10101010"` gives
the pattern `10101010` while `"146"` gives `10010010`. -/
theorem bare_digit_disambiguation :
    parseBareDigits "10101010"
      = [true, false, true, false, true, false, true, false]
    ∧ parseBareDigits "146"
      = [true, false, false, true, false, false, true, false]
    ∧ (∀ s : String, (∀ c ∈ s.data, c = '0' ∨ c = '1') →
        parseBareDigits s = s.data.map (fun c => c == '1'))
    ∧ (∀ s : String, (∃ c ∈ s.data, c ≠ '0' ∧ c ≠ '1') →
        parseBareDigits s = natToBits (parseBaseNat 10 s.data)) := by
  refine ⟨by decide, by decide, ?_, ?_⟩
  · intro s h
    unfold parseBareDigits isBinaryString
    rw [if_pos (List.all_eq_true.mpr fun c hc => by
      rcases h c hc with rfl | rfl <;> decide)]
  · intro s h
    rcases h with ⟨c, hc, h0, h1⟩
    have hbin : ¬ ((s.data.all fun c => c == '0' || c == '1') = true) := by
      intro hall
      have hc01 := List.all_eq_true.mp hall c hc
      simp only [Bool.or_eq_true, beq_iff_eq] at hc01
      rcases hc01 with rfl | rfl
      · exact h0 rfl
      · exact h1 rfl
    unfold parseBareDigits isBinaryString
    rw [if_neg hbin]

/-- Witness for C8: the all-binary branch applied to `"11"`. -/
theorem bare_digit_disambiguation_witness :
    parseBareDigits "11" = "11".data.map (fun c => c == '1') :=
  bare_digit_disambiguation.2.2.1 "11" (by decide)

/-- Claim C9: the test generator is total and in range — for any
`steps ≥ 1` it returns exactly `steps` booleans, every computed onset
position `i * steps / onsets` is below `steps`, and `onsets > steps`
yields the all-true pattern instead of failing. -/
theorem euclidean_pattern_total_safe :
    ∀ onsets steps : Nat, 1 ≤ steps →
      (euclidean_pattern onsets steps).length = steps
      ∧ (steps < onsets →
          euclidean_pattern onsets steps = List.replicate steps true)
      ∧ (0 < onsets → onsets < steps →
          ∀ i : Nat, i < onsets → i * steps / onsets < steps) := by
  intro o s _
  refine ⟨euclidean_pattern_length o s, ?_, ?_⟩
  · intro hlt
    rw [euclidean_pattern, if_neg (by omega), if_pos (by omega)]
  · intro h0 hos i hi
    exact euclid_pos_lt o s i h0 (le_of_lt hos) hi

/-- Witness for C9 at `onsets = 12 > steps = 8`. -/
theorem euclidean_pattern_total_safe_witness :
    (euclidean_pattern 12 8).length = 8
    ∧ euclidean_pattern 12 8 = List.replicate 8 true :=
  ⟨(euclidean_pattern_total_safe 12 8 (by decide)).1,
    (euclidean_pattern_total_safe 12 8 (by decide)).2.1 (by decide)⟩

/-- Claim C10: hex and decimal conversion discard the pattern length —
the all-false patterns of lengths 1 and 8 are distinct yet both render
as `"0x0"` and decimal `0`, so the display determines the pattern only
together with a step count. -/
theorem hex_decimal_not_injective :
    [false] ≠ List.replicate 8 false
    ∧ pattern_to_hex_webapp_style [false] = "0x0"
    ∧ pattern_to_hex_webapp_style (List.replicate 8 false) = "0x0"
    ∧ pattern_to_decimal_webapp_style [false] = 0
    ∧ pattern_to_decimal_webapp_style (List.replicate 8 false) = 0 :=
  ⟨by decide, by decide, by decide, by decide, by decide⟩

